/-
Verification of the offer normalization / matching / ranking core of the
aws_product_comparison repository (backend/app/normalize.py, backend/app/utils.py,
backend/app/aggregate.py) against its natural-language specification.

Modelling conventions:

* Python strings are modelled as Lean `String` / `List Char`.  `str.lower()` is
  modelled for the character repertoire actually processed by this code base
  (ASCII letters and Hangul syllables, which have no case).
* Python floats are modelled as `ℚ`; `round(x, n)` uses round-half-to-even on the
  exact rational value (binary floating point artifacts are out of scope).
* The regular-expression substitutions of `clean_product_name` and
  `normalize_product_name` are modelled by dedicated left-to-right scanners that
  reproduce `re.sub` semantics (leftmost non-overlapping matches, greedy
  quantifiers, word boundaries evaluated on the original string) for the
  specific patterns occurring in the source.  For these patterns the regex
  engine's backtracking can never produce a match that the greedy scan misses,
  because no unit alternative starts with a digit or a whitespace character.
* The optional `rapidfuzz` dependency is modelled as an abstract
  `Option FuzzLib` parameter: `some f` is the library-present branch with
  `f.simFull`/`f.simPart` standing for `fuzz.ratio`/`fuzz.partial` similarity
  scores, `none` is the word-overlap fallback branch, exactly as in the source.
* Python `list.sort(key=..., reverse=True)` is a stable sort; it is modelled by
  `List.insertionSort` with the reflexive total preorder "score is at least",
  which realizes the same (unique) stable descending ordering.
* A Python function call that raises (float division by zero in
  `normalize_rating`) is modelled with an outer `Option`: `none` is the raised
  `ZeroDivisionError`.
-/
import Mathlib

namespace ProductComparison

/-! ## Character-level utilities -/

/-- Model of `str.lower()` for one character: basic latin letters are lowered,
everything else (digits, punctuation, Hangul) is fixed.  This agrees with CPython
on the repertoire used by the repository. -/
def lowerChar (c : Char) : Char :=
  if 65 ≤ c.toNat ∧ c.toNat ≤ 90 then Char.ofNat (c.toNat + 32) else c

/-- ASCII digit test, the characters matched by the regex class `\d` here. -/
def isDigitCh (c : Char) : Bool :=
  48 ≤ c.toNat && c.toNat ≤ 57

/-- Whitespace as matched by the Python regex class `\s` (ASCII part):
space, tab, newline, carriage return, vertical tab, form feed. -/
def isSpaceCh (c : Char) : Bool :=
  c.toNat == 32 || c.toNat == 9 || c.toNat == 10 || c.toNat == 13
    || c.toNat == 11 || c.toNat == 12

/-- Word characters for the regex metacharacter `\b`: ASCII alphanumerics,
underscore, and Hangul syllables (the repertoire of this code base). -/
def isWordCh (c : Char) : Bool :=
  isDigitCh c || (65 ≤ c.toNat && c.toNat ≤ 90) || (97 ≤ c.toNat && c.toNat ≤ 122)
    || c.toNat == 95 || (0xAC00 ≤ c.toNat && c.toNat ≤ 0xD7A3)

/-- Word-character test lifted to an optional character (out of bounds of the
string counts as a non-word position for `\b`). -/
def isWordOpt : Option Char → Bool
  | none => false
  | some c => isWordCh c

/-- Model of `str.lower()`. -/
def lowerStr (s : String) : String :=
  ⟨s.data.map lowerChar⟩

/-- Case-insensitive prefix test (the way `re.IGNORECASE` compares letters). -/
def ciStarts : List Char → List Char → Bool
  | [], _ => true
  | _ :: _, [] => false
  | p :: ps, c :: cs => (lowerChar p == lowerChar c) && ciStarts ps cs

/-- Exact prefix test on character lists. -/
def starts : List Char → List Char → Bool
  | [], _ => true
  | _ :: _, [] => false
  | p :: ps, c :: cs => (p == c) && starts ps cs

/-- Contiguous-substring test on character lists; models the Python `in`
operator on strings. -/
def containsSeq (n : List Char) : List Char → Bool
  | [] => starts n []
  | c :: h => starts n (c :: h) || containsSeq n h

/-- Python `needle in haystack` on strings. -/
def pyIn (needle hay : String) : Bool :=
  containsSeq needle.data hay.data

/-- Maximal runs of non-whitespace characters, i.e. Python `str.split()`. -/
def splitWs : List Char → List (List Char)
  | [] => []
  | c :: rest =>
    if isSpaceCh c then splitWs rest
    else match splitWs rest with
      | [] => [[c]]
      | w :: ws => if isSpaceCh (rest.headD ' ') then [c] :: w :: ws else (c :: w) :: ws

/-- Model of `re.sub(r"\s+", " ", s)`: every maximal whitespace run becomes a
single ASCII space. -/
def collapseWs : List Char → List Char
  | [] => []
  | [c] => [if isSpaceCh c then ' ' else c]
  | c1 :: c2 :: rest =>
    if isSpaceCh c1 && isSpaceCh c2 then collapseWs (c2 :: rest)
    else (if isSpaceCh c1 then ' ' else c1) :: collapseWs (c2 :: rest)

/-- Model of `str.strip()`: whitespace removed from both ends. -/
def stripWs (l : List Char) : List Char :=
  ((l.dropWhile isSpaceCh).reverse.dropWhile isSpaceCh).reverse

/-! ## A scanner reproducing `re.sub(pattern, "", s)`

`re.sub` walks the string left to right, removing each leftmost non-overlapping
match; word boundaries are evaluated against the original string, so after a
removal the scan continues behind the removed region with the last removed
character as left context.  A matcher takes the left-context character and the
remaining suffix and returns the length of the match at this position, if any.
All patterns used here match at least one character, so the fuel `s.length`
is always sufficient. -/
def subScanF (m : Option Char → List Char → Option Nat) :
    Nat → Option Char → List Char → List Char
  | 0, _, s => s
  | _ + 1, _, [] => []
  | fuel + 1, prev, c :: rest =>
    match m prev (c :: rest) with
    | some n => subScanF m fuel (some ((c :: rest).getD (n - 1) c)) (rest.drop (n - 1))
    | none => c :: subScanF m fuel (some c) rest

/-- Run one `re.sub(pattern, "", s)` pass over a whole string. -/
def doSub (m : Option Char → List Char → Option Nat) (s : List Char) : List Char :=
  subScanF m s.length none s

/-- Try the unit alternatives of a `(u1|u2|...)\b` group in source order at the
head of `t`; returns the length of the matched unit.  The trailing `\b` compares
the last matched character with the following one. -/
def unitAltMatch (units : List (List Char)) (t : List Char) : Option Nat :=
  match units with
  | [] => none
  | u :: us =>
    if ciStarts u t
        && (isWordCh (t.getD (u.length - 1) 'a') != isWordOpt ((t.drop u.length).head?)) then
      some u.length
    else unitAltMatch us t

/-- Matcher for the patterns `\d+\s*(unit alternatives)\b` (the weight and the
count patterns of `clean_product_name`).  `\d+` and `\s*` are greedy; since no
unit starts with a digit or a space, backtracking cannot add matches. -/
def numUnitMatch (units : List (List Char)) (_prev : Option Char) (s : List Char) :
    Option Nat :=
  let ds := s.takeWhile isDigitCh
  if ds.length = 0 then none
  else
    let rest1 := s.drop ds.length
    let sps := rest1.takeWhile isSpaceCh
    let rest2 := rest1.drop sps.length
    match unitAltMatch units rest2 with
    | some k => some (ds.length + sps.length + k)
    | none => none

/-- Matcher for `x\s*\d+` with `re.IGNORECASE`. -/
def xnumMatch (_prev : Option Char) (s : List Char) : Option Nat :=
  match s with
  | [] => none
  | c :: rest =>
    if lowerChar c = 'x' then
      let sps := rest.takeWhile isSpaceCh
      let rest2 := rest.drop sps.length
      let ds := rest2.takeWhile isDigitCh
      if ds.length = 0 then none else some (1 + sps.length + ds.length)
    else none

/-- Matcher for `\(\[^)]*\)` (and, with other delimiters, `\[[^\]]*\]`): an
opening delimiter, the run up to the first closing delimiter, and that closing
delimiter. -/
def bracketMatch (oc cc : Char) (_prev : Option Char) (s : List Char) : Option Nat :=
  match s with
  | [] => none
  | c :: rest =>
    if c = oc then
      let body := rest.takeWhile (fun d => d != cc)
      if body.length < rest.length then some (body.length + 2) else none
    else none

/-- Matcher for a brand pattern `\b tok \b` with `re.IGNORECASE`. -/
def brandMatch (tok : List Char) (prev : Option Char) (s : List Char) : Option Nat :=
  if ciStarts tok s
      && (isWordOpt prev != isWordOpt s.head?)
      && (isWordCh (s.getD (tok.length - 1) 'a') != isWordOpt ((s.drop tok.length).head?)) then
    some tok.length
  else none

/-- Unit alternatives of the weight pattern, in source order
(`g|kg|ml|l|리터|그램|킬로그램`). -/
def weightUnits : List (List Char) :=
  ["g".data, "kg".data, "ml".data, "l".data, "리터".data, "그램".data, "킬로그램".data]

/-- Unit alternatives of the count pattern, in source order
(`개|봉|입|팩|박스|x`). -/
def countUnits : List (List Char) :=
  ["개".data, "봉".data, "입".data, "팩".data, "박스".data, "x".data]

/-- The brand tokens stripped by `normalize_product_name`, in source order. -/
def brandTokens : List (List Char) :=
  ["농심".data, "오뚜기".data, "삼양".data, "팔도".data,
   "nongshim".data, "ottogi".data, "samyang".data, "paldo".data]

/-! ## utils.py -/

/-- Embedding of `utils.clean_product_name` on character lists: the five
removal substitutions followed by whitespace collapsing and stripping. -/
def clean_product_name_chars (name : List Char) : List Char :=
  let n1 := doSub (numUnitMatch weightUnits) name
  let n2 := doSub (numUnitMatch countUnits) n1
  let n3 := doSub xnumMatch n2
  let n4 := doSub (bracketMatch '(' ')') n3
  let n5 := doSub (bracketMatch '[' ']') n4
  stripWs (collapseWs n5)

/-- Embedding of `utils.clean_product_name`. -/
def clean_product_name (s : String) : String :=
  ⟨clean_product_name_chars s.data⟩

/-- Round half to even on the exact rational value, the rounding of Python
`round`. -/
def roundHalfEven (q : ℚ) : ℤ :=
  let f := ⌊q⌋
  if q - f < 1 / 2 then f
  else if 1 / 2 < q - f then f + 1
  else if f % 2 = 0 then f else f + 1

/-- Python `round(x, 2)` on the exact rational value. -/
def round2 (q : ℚ) : ℚ :=
  (roundHalfEven (q * 100) : ℚ) / 100

/-- The final clamping and rounding step of `utils.normalize_rating`:
`round(min(max(rating, 0.0), 5.0), 2)`. -/
def finishRating (x : ℚ) : ℚ :=
  round2 (min (max x 0) 5)

/-- Embedding of `utils.normalize_rating`.  The outer `Option` models raising:
`none` is the `ZeroDivisionError` raised by `(rating / max_rating)` when
`max_rating` is `0.0`. -/
def normalize_rating (rating : Option ℚ) (max_rating : ℚ) : Option (Option ℚ) :=
  match rating with
  | none => some none
  | some r =>
    if max_rating ≠ 5 then
      if max_rating = 0 then none
      else some (some (finishRating (r / max_rating * 5)))
    else some (some (finishRating r))

/-! ## Data model (schemas.py) -/

/-- Embedding of the `Offer` record.  Prices and review counts are integers,
ratings are rationals; optional fields are `Option`. -/
structure Offer where
  source : String
  title : String
  url : String
  price_krw : Option ℤ
  rating : Option ℚ
  review_count : Option ℤ
  image_url : Option String
  fetched_at : String
deriving DecidableEq, Repr

/-- Embedding of `MatchScore`: one offer, its score and the reason strings. -/
structure MatchScore where
  offer : Offer
  score : ℚ
  reasons : List String
deriving DecidableEq, Repr

/-- The fields of `ProductSummary` that the core populates. -/
structure ProductSummary where
  brand : String
  query : String
  best_offer : Option Offer
  offers : List Offer
deriving DecidableEq, Repr

/-- Embedding of the `Comparison` record. -/
structure Comparison where
  rating_diff : Option ℚ
  price_diff_krw : Option ℤ
  review_count_diff : Option ℤ
deriving DecidableEq, Repr

/-! ## normalize.py -/

/-- Embedding of `normalize_product_name` on character lists: lowercase, strip
the brand patterns in order, `clean_product_name`, lowercase again, collapse
whitespace, strip. -/
def normalize_product_name_chars (name : List Char) : List Char :=
  let n0 := name.map lowerChar
  let n1 := brandTokens.foldl (fun acc tok => doSub (brandMatch tok) acc) n0
  let n2 := clean_product_name_chars n1
  let n3 := n2.map lowerChar
  stripWs (collapseWs n3)

/-- Embedding of `normalize.normalize_product_name`. -/
def normalize_product_name (s : String) : String :=
  ⟨normalize_product_name_chars s.data⟩

/-- The two similarity functions of the optional fuzzy-matching library
(`fuzz.ratio` and the substring variant), abstract rating functions with values
in percent. -/
structure FuzzLib where
  simFull : String → String → ℚ
  simPart : String → String → ℚ

/-- CPython `"%.1f"`-style formatting of an exact rational value (one decimal,
round half to even; the sign of a rounded-to-zero negative value is not
modelled). -/
def fmt1 (q : ℚ) : String :=
  let n := roundHalfEven (q * 10)
  (if n < 0 then "-" else "") ++ toString (n.natAbs / 10) ++ "." ++ toString (n.natAbs % 10)

/-- Signal 1 of `calculate_match_score`: string similarity, worth up to 50
points.  With the library (`some f`): half of the better of the two similarity
ratios.  Without it (`none`): word-set overlap between the normalized query and
the normalized title, scaled to 50, skipped entirely when the query word set is
empty. -/
def sim_signal (fuzz : Option FuzzLib) (nq nt : String) : ℚ × List String :=
  match fuzz with
  | some f =>
    let similarity := max (f.simFull nq nt) (f.simPart nq nt)
    (similarity * (1 / 2), ["String similarity: " ++ fmt1 similarity ++ "%"])
  | none =>
    let query_words := (splitWs nq.data).dedup
    let title_words := (splitWs nt.data).dedup
    if query_words = [] then (0, [])
    else
      let overlap : ℚ :=
        ((query_words.filter (fun w => w ∈ title_words)).length : ℚ) / (query_words.length : ℚ)
      (overlap * 50, ["Word overlap: " ++ fmt1 (overlap * 100) ++ "%"])

/-- Signal 2: +20 when the lowercased brand occurs in the lowercased raw
title. -/
def brand_signal (brand title : String) : ℚ × List String :=
  if pyIn (lowerStr brand) (lowerStr title) then
    (20, ["Brand '" ++ brand ++ "' found in title"])
  else (0, [])

/-- Signal 3: +5 when `offer.price_krw` is truthy (present and non-zero; Python
`if offer.price_krw:`). -/
def price_signal (o : Offer) : ℚ × List String :=
  match o.price_krw with
  | some p => if p ≠ 0 then (5, ["Has price"]) else (0, [])
  | none => (0, [])

/-- Signal 4: +5 when `offer.rating is not None`. -/
def rating_signal (o : Offer) : ℚ × List String :=
  match o.rating with
  | some _ => (5, ["Has rating"])
  | none => (0, [])

/-- Signal 5: +10 when `offer.review_count` is truthy and positive. -/
def reviews_signal (o : Offer) : ℚ × List String :=
  match o.review_count with
  | some n => if 0 < n then (10, ["Has " ++ toString n ++ " reviews"]) else (0, [])
  | none => (0, [])

/-- Signal 6: +5 when `offer.image_url` is truthy (present and non-empty). -/
def image_signal (o : Offer) : ℚ × List String :=
  match o.image_url with
  | some u => if u ≠ "" then (5, ["Has image"]) else (0, [])
  | none => (0, [])

/-- The bulk-indicator keywords of signal 7, in source order. -/
def bulk_keywords : List String :=
  ["세트", "박스", "묶음", "대용량", "업소용"]

/-- Signal 7: −15 when the lowercased title contains a bulk keyword and the
lowercased query contains neither "세트" nor "박스" (the source checks the query
against those two keywords only). -/
def bulk_signal (query title : String) : ℚ × List String :=
  if bulk_keywords.any (fun kw => pyIn kw (lowerStr title)) then
    if ¬ (pyIn "세트" (lowerStr query) = true) ∧ ¬ (pyIn "박스" (lowerStr query) = true) then
      (-15, ["Penalty: might be bulk/set product"])
    else (0, [])
  else (0, [])

/-- Embedding of `calculate_match_score`: the seven additive signals evaluated
in source order, score clamped below at 0, reasons concatenated in order. -/
def calculate_match_score (fuzz : Option FuzzLib) (query brand : String) (o : Offer) :
    MatchScore :=
  let normalized_query := normalize_product_name query
  let normalized_title := normalize_product_name o.title
  let s1 := sim_signal fuzz normalized_query normalized_title
  let s2 := brand_signal brand o.title
  let s3 := price_signal o
  let s4 := rating_signal o
  let s5 := reviews_signal o
  let s6 := image_signal o
  let s7 := bulk_signal query o.title
  { offer := o,
    score := max 0 (0 + s1.1 + s2.1 + s3.1 + s4.1 + s5.1 + s6.1 + s7.1),
    reasons := s1.2 ++ s2.2 ++ s3.2 ++ s4.2 ++ s5.2 ++ s6.2 ++ s7.2 }

/-- The score of an offer under `calculate_match_score`. -/
def offer_score (fuzz : Option FuzzLib) (query brand : String) (o : Offer) : ℚ :=
  (calculate_match_score fuzz query brand o).score

/-- The sort order of `scored.sort(key=lambda x: x.score, reverse=True)`:
descending score; as a reflexive total preorder a stable sort keeps tied
elements in input order, exactly as Python does. -/
def msGE (x y : MatchScore) : Prop :=
  y.score ≤ x.score

instance : DecidableRel msGE :=
  fun x y => inferInstanceAs (Decidable (y.score ≤ x.score))

instance : IsTotal MatchScore msGE :=
  ⟨fun a b => le_total b.score a.score⟩

instance : IsTrans MatchScore msGE :=
  ⟨fun _ _ _ h1 h2 => le_trans h2 h1⟩

/-- Score all offers and stable-sort them by descending score, the shared body
of `select_best_offer` and `match_offers_for_product`. -/
def rank_offers (fuzz : Option FuzzLib) (query brand : String) (offers : List Offer) :
    List MatchScore :=
  List.insertionSort msGE (offers.map (calculate_match_score fuzz query brand))

/-- Embedding of `select_best_offer`.  The inner `[]` case of the sorted list is
unreachable (the sorted list of a non-empty list is non-empty) and mirrors the
guarded `scored[0]` indexing of the source. -/
def select_best_offer (fuzz : Option FuzzLib) (offers : List Offer)
    (query brand : String) (threshold : ℚ) : Option Offer × List String :=
  match offers with
  | [] => (none, ["No offers found"])
  | _ :: _ =>
    match rank_offers fuzz query brand offers with
    | [] => (none, ["No offers found"])
    | best :: rest =>
      let warnings :=
        (if best.score < threshold then
          ["Best match score (" ++ fmt1 best.score ++ ") is below threshold ("
            ++ fmt1 threshold ++ "). Result may not be accurate."]
        else []) ++
        (match rest with
         | runner_up :: _ =>
           if best.score * (9 / 10) < runner_up.score then
             ["Alternative candidate: '" ++ runner_up.offer.title ++ "' (score: "
               ++ fmt1 runner_up.score ++ ")"]
           else []
         | [] => [])
      (some best.offer, warnings)

/-- Embedding of `match_offers_for_product`: rank all offers, delegate best
offer and warnings to `select_best_offer` with the default threshold 30.0. -/
def match_offers_for_product (fuzz : Option FuzzLib) (offers : List Offer)
    (query brand : String) : Option Offer × List Offer × List String :=
  match offers with
  | [] => (none, [], ["No offers available"])
  | _ :: _ =>
    let sortedScored := rank_offers fuzz query brand offers
    let best := select_best_offer fuzz offers query brand 30
    (best.1, sortedScored.map (fun s => s.offer), best.2)

/-! ## aggregate.py -/

/-- Embedding of `aggregate.calculate_comparison`: the three diffs are computed
only when both summaries carry a best offer, and each diff only when both of its
operands are present. -/
def calculate_comparison (product_a product_b : ProductSummary) : Comparison :=
  match product_a.best_offer, product_b.best_offer with
  | some oa, some ob =>
    { rating_diff :=
        match oa.rating, ob.rating with
        | some ra, some rb => some (round2 (ra - rb))
        | _, _ => none,
      price_diff_krw :=
        match oa.price_krw, ob.price_krw with
        | some pa, some pb => some (pa - pb)
        | _, _ => none,
      review_count_diff :=
        match oa.review_count, ob.review_count with
        | some ra, some rb => some (ra - rb)
        | _, _ => none }
  | _, _ => { rating_diff := none, price_diff_krw := none, review_count_diff := none }

/-! ## Predicates used by the normalizer idempotence analysis -/

/-- Strings on which no removal stage of the normalizer can create input for
another stage: no character can trigger the digit-based, x-based or bracket
substitutions, and no brand token occurs (case-insensitively) as a contiguous
substring. -/
def noCascade (s : List Char) : Prop :=
  (∀ c ∈ s, isDigitCh c = false ∧ lowerChar c ≠ 'x' ∧ c ≠ '(' ∧ c ≠ '[') ∧
  (∀ tok ∈ brandTokens, containsSeq tok (s.map lowerChar) = false)

instance (s : List Char) : Decidable (noCascade s) :=
  inferInstanceAs (Decidable (_ ∧ _))

/-- Whitespace-normal lists: every whitespace character is a plain space, and
no two adjacent characters are both whitespace.  This is an invariant of
`collapseWs` output. -/
def WsNorm (l : List Char) : Prop :=
  (∀ c ∈ l, isSpaceCh c = true → c = ' ') ∧
  l.Chain' (fun a b => ¬(isSpaceCh a = true ∧ isSpaceCh b = true))

/-! ## Sample data used by concrete witnesses and counterexamples -/

/-- A well-populated sample offer. -/
def sampleOffer : Offer :=
  { source := "danawa", title := "농심 신라면", url := "u1",
    price_krw := some 4500, rating := some (9 / 2), review_count := some 1000,
    image_url := some "img", fetched_at := "t" }

/-- The same listing under a different url, used to manufacture a score tie. -/
def sampleOfferB : Offer :=
  { source := "danawa", title := "농심 신라면", url := "u2",
    price_krw := some 4500, rating := some (9 / 2), review_count := some 1000,
    image_url := some "img", fetched_at := "t" }

/-- A bulk-flagged listing ("세트" in the title) with no other signals. -/
def bulkOffer : Offer :=
  { source := "s", title := "신라면 세트", url := "u",
    price_krw := none, rating := none, review_count := none,
    image_url := none, fetched_at := "t" }

/-- A listing whose price field is present with value 0. -/
def zeroPriceOffer : Offer :=
  { source := "s", title := "신라면", url := "u",
    price_krw := some 0, rating := none, review_count := none,
    image_url := none, fetched_at := "t" }

/-- Summary with a best offer that has a price but no rating
(fields: source, title, url, price, rating, review count, image, fetched). -/
def summaryPriceOnly : ProductSummary :=
  { brand := "농심", query := "신라면",
    best_offer := some ⟨"s", "신라면", "u", some 4000, none, some 10, none, "t"⟩,
    offers := [] }

/-- Summary with a best offer that has both a price and a rating. -/
def summaryFull : ProductSummary :=
  { brand := "오뚜기", query := "진라면",
    best_offer := some ⟨"s", "진라면", "u", some 3500, some 4, some 20, none, "t"⟩,
    offers := [] }

/-! ## General helper lemmas on strings -/

theorem data_append (a b : String) : (a ++ b).data = a.data ++ b.data := by
  cases a; cases b; rfl

theorem head_append (a b : String) (c : Char) (h : a.data.head? = some c) :
    (a ++ b).data.head? = some c := by
  rw [data_append]
  cases ha : a.data with
  | nil => rw [ha] at h; cases h
  | cons x xs => rw [ha] at h; simpa using h

theorem ne_of_head (a b : String) (h : a.data.head? ≠ b.data.head?) : a ≠ b :=
  fun e => h (by rw [e])

theorem length_append3 (a b c : String) :
    (a ++ b ++ c).data.length = a.data.length + b.data.length + c.data.length := by
  rw [data_append, data_append, List.length_append, List.length_append]

/-! ## Which signals can produce which reason strings -/

theorem sim_reason_head (fz : Option FuzzLib) (nq nt : String) (s : String)
    (h : s ∈ (sim_signal fz nq nt).2) :
    s.data.head? = some 'S' ∨ s.data.head? = some 'W' := by
  cases fz with
  | some f =>
    simp only [sim_signal, List.mem_singleton] at h
    exact Or.inl (h ▸ head_append _ _ 'S' rfl)
  | none =>
    simp only [sim_signal] at h
    split at h
    · cases h
    · simp only [List.mem_singleton] at h
      exact Or.inr (h ▸ head_append _ _ 'W' rfl)

theorem brand_reason_head (b t : String) (s : String)
    (h : s ∈ (brand_signal b t).2) : s.data.head? = some 'B' := by
  simp only [brand_signal] at h
  split at h
  · simp only [List.mem_singleton] at h
    exact h ▸ head_append _ _ 'B' rfl
  · cases h

theorem price_reason_eq (o : Offer) (s : String) (h : s ∈ (price_signal o).2) :
    s = "Has price" := by
  unfold price_signal at h
  split at h
  case h_1 =>
    split at h
    · simpa using h
    · cases h
  case h_2 => cases h

theorem rating_reason_eq (o : Offer) (s : String) (h : s ∈ (rating_signal o).2) :
    s = "Has rating" := by
  unfold rating_signal at h
  split at h
  case h_1 => simpa using h
  case h_2 => cases h

theorem reviews_reason_shape (o : Offer) (s : String) (h : s ∈ (reviews_signal o).2) :
    ∃ n : ℤ, s = "Has " ++ toString n ++ " reviews" := by
  revert h
  cases hr : o.review_count with
  | none => intro h; simp [reviews_signal, hr] at h
  | some n =>
    intro h
    by_cases h0 : 0 < n
    · refine ⟨n, ?_⟩
      simpa [reviews_signal, hr, h0] using h
    · simp [reviews_signal, hr, h0] at h

theorem reviews_reason_head (o : Offer) (s : String) (h : s ∈ (reviews_signal o).2) :
    s.data.head? = some 'H' := by
  obtain ⟨n, rfl⟩ := reviews_reason_shape o s h
  exact head_append _ _ 'H' (head_append "Has " _ 'H' (by decide))

theorem image_reason_eq (o : Offer) (s : String) (h : s ∈ (image_signal o).2) :
    s = "Has image" := by
  unfold image_signal at h
  split at h
  case h_1 =>
    split at h
    · simpa using h
    · cases h
  case h_2 => cases h

theorem bulk_reason_eq_of_mem {q t : String} {s : String}
    (h : s ∈ (bulk_signal q t).2) : s = "Penalty: might be bulk/set product" := by
  unfold bulk_signal at h
  split at h
  · split at h
    · simpa using h
    · cases h
  · cases h

theorem bulk_reason_mem (q t : String) :
    "Penalty: might be bulk/set product" ∈ (bulk_signal q t).2 ↔
      (bulk_keywords.any (fun kw => pyIn kw (lowerStr t)) = true
        ∧ pyIn "세트" (lowerStr q) = false ∧ pyIn "박스" (lowerStr q) = false) := by
  unfold bulk_signal
  by_cases hout : bulk_keywords.any (fun kw => pyIn kw (lowerStr t)) = true
  · rw [if_pos hout]
    by_cases hin : ¬(pyIn "세트" (lowerStr q) = true) ∧ ¬(pyIn "박스" (lowerStr q) = true)
    · rw [if_pos hin]
      simp only [List.mem_singleton, true_iff]
      exact ⟨hout, Bool.not_eq_true _ ▸ hin.1, Bool.not_eq_true _ ▸ hin.2⟩
    · rw [if_neg hin]
      simp only [List.not_mem_nil, false_iff]
      rintro ⟨_, h1, h2⟩
      exact hin ⟨by simp [h1], by simp [h2]⟩
  · rw [if_neg hout]
    simp only [List.not_mem_nil, false_iff]
    rintro ⟨h1, _, _⟩
    exact hout h1

theorem reasons_decompose (fuzz : Option FuzzLib) (q b : String) (o : Offer) :
    (calculate_match_score fuzz q b o).reasons =
      (sim_signal fuzz (normalize_product_name q) (normalize_product_name o.title)).2
        ++ (brand_signal b o.title).2 ++ (price_signal o).2 ++ (rating_signal o).2
        ++ (reviews_signal o).2 ++ (image_signal o).2 ++ (bulk_signal q o.title).2 := rfl

/-- The penalty reason can only come from the bulk signal. -/
theorem penalty_mem_iff (fuzz : Option FuzzLib) (q b : String) (o : Offer) :
    "Penalty: might be bulk/set product" ∈ (calculate_match_score fuzz q b o).reasons ↔
      (bulk_keywords.any (fun kw => pyIn kw (lowerStr o.title)) = true
        ∧ pyIn "세트" (lowerStr q) = false ∧ pyIn "박스" (lowerStr q) = false) := by
  rw [reasons_decompose]
  simp only [List.mem_append]
  rw [← bulk_reason_mem q o.title]
  constructor
  · rintro ((((((h | h) | h) | h) | h) | h) | h)
    · rcases sim_reason_head _ _ _ _ h with hh | hh <;> exact absurd hh (by decide)
    · exact absurd (brand_reason_head _ _ _ h) (by decide)
    · exact absurd (price_reason_eq _ _ h) (by decide)
    · exact absurd (rating_reason_eq _ _ h) (by decide)
    · exact absurd (reviews_reason_head _ _ h) (by decide)
    · exact absurd (image_reason_eq _ _ h) (by decide)
    · exact h
  · exact fun h => Or.inr h

/-- The "Has price" reason can only come from the price signal. -/
theorem has_price_mem_iff (fuzz : Option FuzzLib) (q b : String) (o : Offer) :
    "Has price" ∈ (calculate_match_score fuzz q b o).reasons ↔
      (∃ p, o.price_krw = some p ∧ p ≠ 0) := by
  rw [reasons_decompose]
  simp only [List.mem_append]
  constructor
  · rintro ((((((h | h) | h) | h) | h) | h) | h)
    · rcases sim_reason_head _ _ _ _ h with hh | hh <;> exact absurd hh (by decide)
    · exact absurd (brand_reason_head _ _ _ h) (by decide)
    · revert h
      cases hp : o.price_krw with
      | none => intro h; simp [price_signal, hp] at h
      | some p =>
        intro h
        by_cases h0 : p = 0
        · simp [price_signal, hp, h0] at h
        · exact ⟨p, rfl, h0⟩
    · exact absurd (rating_reason_eq _ _ h) (by decide)
    · obtain ⟨n, hn⟩ := reviews_reason_shape _ _ h
      have hlen : ("Has price" : String).data.length
          = ("Has " ++ toString n ++ " reviews").data.length := by rw [hn]
      rw [length_append3] at hlen
      have h9 : ("Has price" : String).data.length = 9 := by decide
      have h4 : ("Has " : String).data.length = 4 := by decide
      have h8 : (" reviews" : String).data.length = 8 := by decide
      rw [h9, h4, h8] at hlen
      omega
    · exact absurd (image_reason_eq _ _ h) (by decide)
    · exact absurd (bulk_reason_eq_of_mem h) (by decide)
  · rintro ⟨p, hp, hne⟩
    refine Or.inl (Or.inl (Or.inl (Or.inl (Or.inr ?_))))
    simp [price_signal, hp, hne]

/-! ## Claim C1 — bulk/set penalty condition -/

/-- C1 (amended): the scorer applies the −15 bulk/set penalty (with its reason
string) exactly when the lowercased raw title contains at least one of the five
bulk keywords AND the lowercased query contains neither "세트" nor "박스" — the
source checks the query against those two keywords only, not against the whole
configured set. -/
theorem c1_bulk_penalty (fuzz : Option FuzzLib) (q b : String) (o : Offer) :
    ("Penalty: might be bulk/set product" ∈ (calculate_match_score fuzz q b o).reasons ↔
      (bulk_keywords.any (fun kw => pyIn kw (lowerStr o.title)) = true
        ∧ pyIn "세트" (lowerStr q) = false ∧ pyIn "박스" (lowerStr q) = false)) ∧
    ("Penalty: might be bulk/set product" ∈ (calculate_match_score fuzz q b o).reasons →
      (bulk_signal q o.title).1 = -15) ∧
    ("Penalty: might be bulk/set product" ∉ (calculate_match_score fuzz q b o).reasons →
      (bulk_signal q o.title).1 = 0) := by
  refine ⟨penalty_mem_iff fuzz q b o, ?_, ?_⟩
  · intro hmem
    have hc := (penalty_mem_iff fuzz q b o).mp hmem
    simp [bulk_signal, hc.1, hc.2.1, hc.2.2]
  · intro hnm
    by_cases hout : bulk_keywords.any (fun kw => pyIn kw (lowerStr o.title)) = true
    · by_cases h1 : pyIn "세트" (lowerStr q) = true
      · simp [bulk_signal, hout, h1]
      · by_cases h2 : pyIn "박스" (lowerStr q) = true
        · simp [bulk_signal, hout, h1, h2]
        · exact absurd ((penalty_mem_iff fuzz q b o).mpr
            ⟨hout, by simpa using h1, by simpa using h2⟩) hnm
    · simp [bulk_signal, hout]

/-- C1 witness: at a concrete bulk-titled listing the penalty fires and the bulk
signal contributes −15. -/
theorem c1_bulk_penalty_witness : (bulk_signal "신라면" bulkOffer.title).1 = -15 :=
  (c1_bulk_penalty none "신라면" "농심" bulkOffer).2.1
    ((c1_bulk_penalty none "신라면" "농심" bulkOffer).1.mpr (by decide))

/-- C1 counterexample: with query "묶음" (a configured bulk keyword that is
neither "세트" nor "박스") and a "세트"-titled listing, the code applies the
penalty although the claim — query contains none of the keywords of the
configured set — says it must not. -/
theorem c1_counterexample :
    ¬ (("Penalty: might be bulk/set product"
          ∈ (calculate_match_score none "묶음" "농심" bulkOffer).reasons) ↔
        (bulk_keywords.any (fun kw => pyIn kw (lowerStr bulkOffer.title)) = true
          ∧ bulk_keywords.all (fun kw => !(pyIn kw (lowerStr "묶음"))) = true)) := by
  intro hiff
  have hmem : "Penalty: might be bulk/set product"
      ∈ (calculate_match_score none "묶음" "농심" bulkOffer).reasons :=
    (penalty_mem_iff none "묶음" "농심" bulkOffer).mpr (by decide)
  exact absurd (hiff.mp hmem).2 (by decide)

/-! ## Claim C3 — has-price signal -/

/-- C3 (amended): the 5-point "Has price" signal (and its reason string) fires
if and only if the listing's price is present AND non-zero: Python evaluates
`if offer.price_krw:`, so a present price of value 0 is treated like an absent
one and receives no points. -/
theorem c3_has_price (fuzz : Option FuzzLib) (q b : String) (o : Offer) :
    ("Has price" ∈ (calculate_match_score fuzz q b o).reasons ↔
      ∃ p, o.price_krw = some p ∧ p ≠ 0) ∧
    (∀ p, o.price_krw = some p → p ≠ 0 → price_signal o = (5, ["Has price"])) ∧
    (o.price_krw = some 0 → price_signal o = ((0 : ℚ), ([] : List String))) := by
  refine ⟨has_price_mem_iff fuzz q b o, ?_, ?_⟩
  · intro p hp h0
    simp [price_signal, hp, h0]
  · intro hp
    simp [price_signal, hp]

/-- C3 witness: a listing with price 4500 gets the signal. -/
theorem c3_has_price_witness : price_signal sampleOffer = (5, ["Has price"]) :=
  (c3_has_price none "신라면" "농심" sampleOffer).2.1 4500 rfl (by decide)

/-- C3 counterexample: a listing whose price field is present with value 0 does
NOT receive the has-price signal, contradicting the claim. -/
theorem c3_counterexample :
    zeroPriceOffer.price_krw = some 0 ∧
    "Has price" ∉ (calculate_match_score none "신라면" "농심" zeroPriceOffer).reasons := by
  refine ⟨rfl, ?_⟩
  intro hmem
  obtain ⟨p, hp, hne⟩ :=
    (has_price_mem_iff none "신라면" "농심" zeroPriceOffer).mp hmem
  have : some (0 : ℤ) = some p := hp
  exact hne (Option.some_injective _ this).symm

/-! ## Claim C5 — empty input behaviour -/

/-- C5: on empty input `select_best_offer` returns exactly
`(none, ["No offers found"])` and `match_offers_for_product` returns exactly
`(none, [], ["No offers available"])`, for every query, brand, threshold and
similarity backend. -/
theorem c5_empty_inputs (fuzz : Option FuzzLib) (q b : String) (threshold : ℚ) :
    select_best_offer fuzz [] q b threshold = (none, ["No offers found"]) ∧
    match_offers_for_product fuzz [] q b = (none, [], ["No offers available"]) :=
  ⟨rfl, rfl⟩

/-! ## Claim C7 — score is never negative -/

/-- C7: the final match score is clamped below at 0: for every similarity
backend, query, brand and listing the score is non-negative. -/
theorem c7_score_nonneg (fuzz : Option FuzzLib) (q b : String) (o : Offer) :
    0 ≤ (calculate_match_score fuzz q b o).score :=
  le_max_left 0 _

/-! ## Claim C9 — empty query word set in fallback mode -/

/-- C9: in fallback (word-overlap) similarity mode an empty normalized-query
word set contributes nothing — no points and no reason — and the scorer still
returns a total result built from the remaining signals; no division by zero
occurs because the overlap branch is guarded by the emptiness test. -/
theorem c9_empty_query_overlap (q b : String) (o : Offer)
    (h : splitWs (normalize_product_name q).data = []) :
    sim_signal none (normalize_product_name q) (normalize_product_name o.title) = (0, []) ∧
    (calculate_match_score none q b o).score
      = max 0 (0 + 0 + (brand_signal b o.title).1 + (price_signal o).1 + (rating_signal o).1
        + (reviews_signal o).1 + (image_signal o).1 + (bulk_signal q o.title).1) ∧
    (calculate_match_score none q b o).reasons
      = (brand_signal b o.title).2 ++ (price_signal o).2 ++ (rating_signal o).2
        ++ (reviews_signal o).2 ++ (image_signal o).2 ++ (bulk_signal q o.title).2 := by
  have hs : sim_signal none (normalize_product_name q) (normalize_product_name o.title)
      = (0, []) := by
    simp [sim_signal, h]
  refine ⟨hs, ?_, ?_⟩
  · show max 0 (0 + (sim_signal none (normalize_product_name q)
        (normalize_product_name o.title)).1 + (brand_signal b o.title).1 + (price_signal o).1
        + (rating_signal o).1 + (reviews_signal o).1 + (image_signal o).1
        + (bulk_signal q o.title).1) = _
    rw [hs]
  · show (sim_signal none (normalize_product_name q) (normalize_product_name o.title)).2
        ++ (brand_signal b o.title).2 ++ (price_signal o).2 ++ (rating_signal o).2
        ++ (reviews_signal o).2 ++ (image_signal o).2 ++ (bulk_signal q o.title).2 = _
    rw [hs]
    simp

/-- C9 witness: the empty query has an empty normalized word set, and the
scorer returns the signal-only result. -/
theorem c9_empty_query_overlap_witness :
    sim_signal none (normalize_product_name "") (normalize_product_name sampleOffer.title)
      = (0, []) :=
  (c9_empty_query_overlap "" "농심" sampleOffer (by decide)).1

/-! ## Ranking helper lemmas -/

theorem offer_of_cms (fuzz : Option FuzzLib) (q b : String) (o : Offer) :
    (calculate_match_score fuzz q b o).offer = o := rfl

theorem mem_rank_offers {fuzz : Option FuzzLib} {q b : String} {offers : List Offer}
    {m : MatchScore} (hm : m ∈ rank_offers fuzz q b offers) :
    ∃ o ∈ offers, m = calculate_match_score fuzz q b o := by
  unfold rank_offers at hm
  rw [List.mem_insertionSort] at hm
  obtain ⟨o, ho, rfl⟩ := List.mem_map.mp hm
  exact ⟨o, ho, rfl⟩

theorem rank_offers_sorted (fuzz : Option FuzzLib) (q b : String) (offers : List Offer) :
    List.Pairwise msGE (rank_offers fuzz q b offers) :=
  List.sorted_insertionSort msGE _

theorem rank_offers_perm (fuzz : Option FuzzLib) (q b : String) (offers : List Offer) :
    (rank_offers fuzz q b offers).Perm (offers.map (calculate_match_score fuzz q b)) :=
  List.perm_insertionSort msGE _

theorem ranked_list_eq (fuzz : Option FuzzLib) (q b : String) (o0 : Offer) (os : List Offer) :
    (match_offers_for_product fuzz (o0 :: os) q b).2.1
      = (rank_offers fuzz q b (o0 :: os)).map (fun s => s.offer) := rfl

theorem rank_offers_cons_ne_nil (fuzz : Option FuzzLib) (q b : String) (o0 : Offer)
    (os : List Offer) : rank_offers fuzz q b (o0 :: os) ≠ [] := by
  intro h
  have hlen := (rank_offers_perm fuzz q b (o0 :: os)).length_eq
  rw [h] at hlen
  simp at hlen

theorem best_offer_head (fuzz : Option FuzzLib) (q b : String) (o0 : Offer) (os : List Offer)
    {m : MatchScore} {t : List MatchScore} (hmt : rank_offers fuzz q b (o0 :: os) = m :: t) :
    (match_offers_for_product fuzz (o0 :: os) q b).1 = some m.offer ∧
    ((match_offers_for_product fuzz (o0 :: os) q b).2.1).head? = some m.offer := by
  constructor
  · show (select_best_offer fuzz (o0 :: os) q b 30).1 = some m.offer
    unfold select_best_offer
    rw [hmt]
  · rw [ranked_list_eq, hmt]
    rfl

/-! ## Claim C4 — ranking is stable and descending, best is at index 0 -/

/-- C4: the ranked list of `match_offers_for_product` is sorted by descending
score; two listings with equal scores keep their original relative input order
(stability); and the returned best offer is the listing at index 0 of that
ordering. -/
theorem c4_stable_ranking (fuzz : Option FuzzLib) (q b : String) (offers : List Offer) :
    List.Pairwise (fun o1 o2 => offer_score fuzz q b o2 ≤ offer_score fuzz q b o1)
      (match_offers_for_product fuzz offers q b).2.1 ∧
    (∀ o1 o2, [o1, o2].Sublist offers →
      offer_score fuzz q b o1 = offer_score fuzz q b o2 →
      [o1, o2].Sublist (match_offers_for_product fuzz offers q b).2.1) ∧
    (offers ≠ [] → ∃ bo, (match_offers_for_product fuzz offers q b).1 = some bo ∧
      ((match_offers_for_product fuzz offers q b).2.1).head? = some bo) := by
  cases offers with
  | nil =>
    refine ⟨List.Pairwise.nil, ?_, fun hne => absurd rfl hne⟩
    intro o1 o2 hsub _
    have := List.sublist_nil.mp hsub
    cases this
  | cons o0 os =>
    refine ⟨?_, ?_, ?_⟩
    · rw [ranked_list_eq]
      rw [List.pairwise_map]
      refine (rank_offers_sorted fuzz q b (o0 :: os)).imp_of_mem ?_
      intro m1 m2 h1 h2 hge
      obtain ⟨x1, _, rfl⟩ := mem_rank_offers h1
      obtain ⟨x2, _, rfl⟩ := mem_rank_offers h2
      exact hge
    · intro o1 o2 hsub heq
      rw [ranked_list_eq]
      have h1 : [calculate_match_score fuzz q b o1, calculate_match_score fuzz q b o2].Sublist
          ((o0 :: os).map (calculate_match_score fuzz q b)) := by
        simpa using hsub.map (calculate_match_score fuzz q b)
      have h2 : msGE (calculate_match_score fuzz q b o1) (calculate_match_score fuzz q b o2) :=
        le_of_eq heq.symm
      have h3 := List.pair_sublist_insertionSort h2 h1
      simpa using h3.map (fun s => s.offer)
    · intro _
      obtain ⟨m, t, hmt⟩ : ∃ m t, rank_offers fuzz q b (o0 :: os) = m :: t := by
        cases hr : rank_offers fuzz q b (o0 :: os) with
        | nil => exact absurd hr (rank_offers_cons_ne_nil fuzz q b o0 os)
        | cons m t => exact ⟨m, t, rfl⟩
      obtain ⟨hb, hh⟩ := best_offer_head fuzz q b o0 os hmt
      exact ⟨m.offer, hb, hh⟩

/-- C4 witness: two listings identical up to url (hence tied scores) keep their
input order in the ranked output, and the best offer is the head of the ranked
list. -/
theorem c4_stable_ranking_witness :
    [sampleOffer, sampleOfferB].Sublist
      ((match_offers_for_product none [sampleOffer, sampleOfferB] "신라면" "농심").2.1) ∧
    (∃ bo, (match_offers_for_product none [sampleOffer, sampleOfferB] "신라면" "농심").1
        = some bo ∧
      ((match_offers_for_product none [sampleOffer, sampleOfferB] "신라면" "농심").2.1).head?
        = some bo) :=
  ⟨(c4_stable_ranking none "신라면" "농심" [sampleOffer, sampleOfferB]).2.1 sampleOffer
      sampleOfferB (List.Sublist.refl _) rfl,
   (c4_stable_ranking none "신라면" "농심" [sampleOffer, sampleOfferB]).2.2
      (List.cons_ne_nil _ _)⟩

/-! ## Claim C10 — ranked output is a permutation, best has maximal score -/

/-- C10: for every input list the ranked list returned by
`match_offers_for_product` is a permutation of the input (nothing added or
dropped), and for non-empty input the returned best offer is an element of the
input whose score is at least the score of every input listing. -/
theorem c10_perm_and_max (fuzz : Option FuzzLib) (q b : String) (offers : List Offer) :
    ((match_offers_for_product fuzz offers q b).2.1).Perm offers ∧
    (offers ≠ [] → ∃ bo, (match_offers_for_product fuzz offers q b).1 = some bo ∧
      bo ∈ offers ∧ ∀ o ∈ offers, offer_score fuzz q b o ≤ offer_score fuzz q b bo) := by
  cases offers with
  | nil => exact ⟨List.Perm.refl _, fun hne => absurd rfl hne⟩
  | cons o0 os =>
    have hperm : ((match_offers_for_product fuzz (o0 :: os) q b).2.1).Perm (o0 :: os) := by
      rw [ranked_list_eq]
      have h1 := (rank_offers_perm fuzz q b (o0 :: os)).map (fun s => s.offer)
      have h2 : ((o0 :: os).map (calculate_match_score fuzz q b)).map (fun s => s.offer)
          = o0 :: os := by
        rw [List.map_map]
        exact List.map_id _
      rwa [h2] at h1
    refine ⟨hperm, fun _ => ?_⟩
    obtain ⟨m, t, hmt⟩ : ∃ m t, rank_offers fuzz q b (o0 :: os) = m :: t := by
      cases hr : rank_offers fuzz q b (o0 :: os) with
      | nil => exact absurd hr (rank_offers_cons_ne_nil fuzz q b o0 os)
      | cons m t => exact ⟨m, t, rfl⟩
    obtain ⟨hb, _⟩ := best_offer_head fuzz q b o0 os hmt
    have hmem : m ∈ rank_offers fuzz q b (o0 :: os) := by rw [hmt]; exact List.mem_cons_self _ _
    obtain ⟨ob, hob, hmo⟩ := mem_rank_offers hmem
    refine ⟨m.offer, hb, ?_, ?_⟩
    · rw [hmo]; exact hob
    · intro o ho
      have hin : calculate_match_score fuzz q b o ∈ rank_offers fuzz q b (o0 :: os) := by
        unfold rank_offers
        rw [List.mem_insertionSort]
        exact List.mem_map_of_mem _ ho
      rw [hmt, List.mem_cons] at hin
      have hscore : (calculate_match_score fuzz q b o).score ≤ m.score := by
        rcases hin with hin | hin
        · exact le_of_eq (congrArg MatchScore.score hin)
        · have hp := rank_offers_sorted fuzz q b (o0 :: os)
          rw [hmt] at hp
          exact List.rel_of_pairwise_cons hp hin
      have hkey : calculate_match_score fuzz q b m.offer = m := by
        subst hmo
        rfl
      show (calculate_match_score fuzz q b o).score
          ≤ (calculate_match_score fuzz q b m.offer).score
      rw [hkey]
      exact hscore

/-- C10 witness: with a single listing, the ranked output is that singleton and
the best offer is the unique input listing, maximal among inputs. -/
theorem c10_perm_and_max_witness :
    ((match_offers_for_product none [sampleOffer] "신라면" "농심").2.1).Perm [sampleOffer] ∧
    (∃ bo, (match_offers_for_product none [sampleOffer] "신라면" "농심").1 = some bo ∧
      bo ∈ [sampleOffer] ∧ ∀ o ∈ [sampleOffer],
        offer_score none "신라면" "농심" o ≤ offer_score none "신라면" "농심" bo) :=
  ⟨(c10_perm_and_max none "신라면" "농심" [sampleOffer]).1,
   (c10_perm_and_max none "신라면" "농심" [sampleOffer]).2 (List.cons_ne_nil _ _)⟩

/-! ## Claim C6 — per-field independence of the comparison -/

/-- C6: each diff field of `calculate_comparison` is evaluated independently: a
field is non-null if and only if both summaries carry a best offer and both
best offers carry that operand; when present, `rating_diff` is
`round(ratingA - ratingB, 2)`, `price_diff_krw` is the price difference and
`review_count_diff` the review-count difference. -/
theorem c6_comparison_fields (a b : ProductSummary) :
    ((calculate_comparison a b).rating_diff ≠ none ↔
      ∃ oa ob ra rb, a.best_offer = some oa ∧ b.best_offer = some ob
        ∧ oa.rating = some ra ∧ ob.rating = some rb) ∧
    (∀ oa ob ra rb, a.best_offer = some oa → b.best_offer = some ob →
      oa.rating = some ra → ob.rating = some rb →
      (calculate_comparison a b).rating_diff = some (round2 (ra - rb))) ∧
    ((calculate_comparison a b).price_diff_krw ≠ none ↔
      ∃ oa ob pa pb, a.best_offer = some oa ∧ b.best_offer = some ob
        ∧ oa.price_krw = some pa ∧ ob.price_krw = some pb) ∧
    (∀ oa ob pa pb, a.best_offer = some oa → b.best_offer = some ob →
      oa.price_krw = some pa → ob.price_krw = some pb →
      (calculate_comparison a b).price_diff_krw = some (pa - pb)) ∧
    ((calculate_comparison a b).review_count_diff ≠ none ↔
      ∃ oa ob ra rb, a.best_offer = some oa ∧ b.best_offer = some ob
        ∧ oa.review_count = some ra ∧ ob.review_count = some rb) ∧
    (∀ oa ob ra rb, a.best_offer = some oa → b.best_offer = some ob →
      oa.review_count = some ra → ob.review_count = some rb →
      (calculate_comparison a b).review_count_diff = some (ra - rb)) := by
  refine ⟨?_, ?_, ?_, ?_, ?_, ?_⟩
  · rcases ha : a.best_offer with _ | oa
    · simp [calculate_comparison, ha]
    rcases hb : b.best_offer with _ | ob
    · simp [calculate_comparison, ha, hb]
    rcases hra : oa.rating with _ | ra <;> rcases hrb : ob.rating with _ | rb <;>
      simp [calculate_comparison, ha, hb, hra, hrb]
  · intro oa ob ra rb h1 h2 h3 h4
    simp [calculate_comparison, h1, h2, h3, h4]
  · rcases ha : a.best_offer with _ | oa
    · simp [calculate_comparison, ha]
    rcases hb : b.best_offer with _ | ob
    · simp [calculate_comparison, ha, hb]
    rcases hpa : oa.price_krw with _ | pa <;> rcases hpb : ob.price_krw with _ | pb <;>
      simp [calculate_comparison, ha, hb, hpa, hpb]
  · intro oa ob pa pb h1 h2 h3 h4
    simp [calculate_comparison, h1, h2, h3, h4]
  · rcases ha : a.best_offer with _ | oa
    · simp [calculate_comparison, ha]
    rcases hb : b.best_offer with _ | ob
    · simp [calculate_comparison, ha, hb]
    rcases hva : oa.review_count with _ | va <;> rcases hvb : ob.review_count with _ | vb <;>
      simp [calculate_comparison, ha, hb, hva, hvb]
  · intro oa ob va vb h1 h2 h3 h4
    simp [calculate_comparison, h1, h2, h3, h4]

/-- C6 witness: summaryPriceOnly (price, no rating) against summaryFull (both):
the price diff is non-null while the rating diff is null — a missing operand
disables only its own field. -/
theorem c6_comparison_fields_witness :
    (calculate_comparison summaryPriceOnly summaryFull).price_diff_krw
      = some (4000 - 3500) ∧
    (calculate_comparison summaryPriceOnly summaryFull).rating_diff = none := by
  constructor
  · exact (c6_comparison_fields summaryPriceOnly summaryFull).2.2.2.1
      ⟨"s", "신라면", "u", some 4000, none, some 10, none, "t"⟩
      ⟨"s", "진라면", "u", some 3500, some 4, some 20, none, "t"⟩
      4000 3500 rfl rfl rfl rfl
  · by_contra hne
    obtain ⟨oa, _, ra, _, h1, _, h3, _⟩ :=
      (c6_comparison_fields summaryPriceOnly summaryFull).1.mp hne
    have hlit : (⟨"s", "신라면", "u", some 4000, none, some 10, none, "t"⟩ : Offer) = oa :=
      Option.some_injective _ h1
    rw [← hlit] at h3
    cases h3

/-! ## Claim C8 — rating normalization bounds -/

theorem roundHalfEven_bounds {z : ℚ} (h0 : 0 ≤ z) (h5 : z ≤ 500) :
    0 ≤ roundHalfEven z ∧ roundHalfEven z ≤ 500 := by
  have hf0 : 0 ≤ ⌊z⌋ := Int.le_floor.mpr (by exact_mod_cast h0)
  have hf5 : ⌊z⌋ ≤ 500 := by
    have hq : (⌊z⌋ : ℚ) ≤ 500 := le_trans (Int.floor_le z) h5
    exact_mod_cast hq
  have hfloor : (⌊z⌋ : ℚ) ≤ z := Int.floor_le z
  simp only [roundHalfEven]
  split_ifs with h1 h2 h3
  · exact ⟨hf0, hf5⟩
  · have hlt : (⌊z⌋ : ℚ) < 500 := by linarith
    have : ⌊z⌋ < 500 := by exact_mod_cast hlt
    constructor <;> omega
  · exact ⟨hf0, hf5⟩
  · have heq : z - ⌊z⌋ = 1 / 2 := le_antisymm (not_lt.mp h2) (not_lt.mp h1)
    have hlt : (⌊z⌋ : ℚ) < 500 := by linarith
    have : ⌊z⌋ < 500 := by exact_mod_cast hlt
    constructor <;> omega

theorem round2_bounds {y : ℚ} (h0 : 0 ≤ y) (h5 : y ≤ 5) :
    0 ≤ round2 y ∧ round2 y ≤ 5 := by
  have hz0 : 0 ≤ y * 100 := mul_nonneg h0 (by norm_num)
  have hz5 : y * 100 ≤ 500 := by nlinarith
  obtain ⟨hn0, hn5⟩ := roundHalfEven_bounds hz0 hz5
  unfold round2
  constructor
  · positivity
  · rw [div_le_iff₀ (by norm_num : (0:ℚ) < 100)]
    calc (roundHalfEven (y * 100) : ℚ) ≤ 500 := by exact_mod_cast hn5
      _ = 5 * 100 := by norm_num

theorem finishRating_bounds (x : ℚ) : 0 ≤ finishRating x ∧ finishRating x ≤ 5 :=
  round2_bounds (le_min (le_max_right x 0) (by norm_num)) (min_le_right _ 5)

/-- C8 (amended): for every non-null input rating and every NON-ZERO max-scale
parameter, `normalize_rating` returns a value in [0, 5]; with max-scale 0 the
Python source instead raises ZeroDivisionError. -/
theorem c8_rating_bounds (r max_rating : ℚ) (hm : max_rating ≠ 0) :
    ∃ v, normalize_rating (some r) max_rating = some (some v) ∧ 0 ≤ v ∧ v ≤ 5 := by
  by_cases h5 : max_rating = 5
  · subst h5
    exact ⟨finishRating r, by simp [normalize_rating],
      (finishRating_bounds r).1, (finishRating_bounds r).2⟩
  · exact ⟨finishRating (r / max_rating * 5), by simp [normalize_rating, h5, hm],
      (finishRating_bounds _).1, (finishRating_bounds _).2⟩

/-- C8 witness: rating 6 on a 0–10 scale normalizes into [0, 5]. -/
theorem c8_rating_bounds_witness :
    ∃ v, normalize_rating (some 6) 10 = some (some v) ∧ 0 ≤ v ∧ v ≤ 5 :=
  c8_rating_bounds 6 10 (by simp)

/-- C8 counterexample: with max-scale 0 the division raises (modelled as the
outer `none`), so no normalized value in [0, 5] is produced, contradicting the
claim's "regardless of the maximum-scale parameter". -/
theorem c8_counterexample :
    normalize_rating (some 3) 0 = none ∧
    ¬ ∃ v, normalize_rating (some 3) 0 = some (some v) ∧ 0 ≤ v ∧ v ≤ 5 := by
  have h : normalize_rating (some 3) 0 = none := by
    have h5 : (0 : ℚ) ≠ 5 := by norm_num
    simp [normalize_rating, h5]
  refine ⟨h, ?_⟩
  rintro ⟨v, hv, _⟩
  rw [h] at hv
  cases hv

/-! ## Claim C2 — normalizer idempotence

The counterexample "5gx3" shows that `normalize_product_name` is not idempotent:
the `x\s*\d+` removal turns "5gx3" into "5g", which a second pass removes as a
weight pattern.  The amended claim proves idempotence on the `noCascade`
fragment, where no removal stage can create input for another stage.  The
lemmas below establish, in order: arithmetic facts about `lowerChar`; that each
substitution scanner is the identity when its trigger characters are absent;
structural invariants of `collapseWs` and `stripWs`; and finally the amended
idempotence theorem. -/

theorem toNat_ofNat_valid {n : Nat} (h : n < 55296) : (Char.ofNat n).toNat = n := by
  unfold Char.ofNat
  rw [dif_pos (Or.inl h)]
  rfl

theorem lowerChar_toNat_of_upper {c : Char} (h1 : 65 ≤ c.toNat) (h2 : c.toNat ≤ 90) :
    (lowerChar c).toNat = c.toNat + 32 := by
  unfold lowerChar
  rw [if_pos ⟨h1, h2⟩]
  exact toNat_ofNat_valid (by omega)

theorem lowerChar_eq_self {c : Char} (h : ¬(65 ≤ c.toNat ∧ c.toNat ≤ 90)) :
    lowerChar c = c :=
  if_neg h

theorem lowerChar_idem (c : Char) : lowerChar (lowerChar c) = lowerChar c := by
  by_cases h : 65 ≤ c.toNat ∧ c.toNat ≤ 90
  · have ht := lowerChar_toNat_of_upper h.1 h.2
    exact lowerChar_eq_self (by omega)
  · rw [lowerChar_eq_self h]
    exact lowerChar_eq_self h

theorem bool_eq_of_iff {a b : Bool} (h : a = true ↔ b = true) : a = b := by
  cases a <;> cases b <;> simp_all

theorem isDigitCh_lowerChar (c : Char) : isDigitCh (lowerChar c) = isDigitCh c := by
  apply bool_eq_of_iff
  simp only [isDigitCh, Bool.and_eq_true, decide_eq_true_eq]
  by_cases h : 65 ≤ c.toNat ∧ c.toNat ≤ 90
  · rw [lowerChar_toNat_of_upper h.1 h.2]
    omega
  · rw [lowerChar_eq_self h]

theorem lowerChar_ne_low {c t : Char} (hne : c ≠ t) (ht : t.toNat < 97) :
    lowerChar c ≠ t := by
  intro he
  by_cases h : 65 ≤ c.toNat ∧ c.toNat ≤ 90
  · have h1 := lowerChar_toNat_of_upper h.1 h.2
    rw [he] at h1
    omega
  · rw [lowerChar_eq_self h] at he
    exact hne he

/-! ### Scanner identity lemmas -/

theorem subScanF_id (m : Option Char → List Char → Option Nat) :
    ∀ (fuel : Nat) (prev : Option Char) (s : List Char),
      (∀ prev2 t, t <:+ s → t ≠ [] → m prev2 t = none) → subScanF m fuel prev s = s := by
  intro fuel
  induction fuel with
  | zero => intro prev s _; rfl
  | succ n ih =>
    intro prev s H
    cases s with
    | nil => rfl
    | cons c rest =>
      have h0 : m prev (c :: rest) = none := H prev _ (List.suffix_refl _) (by simp)
      simp only [subScanF, h0]
      exact congrArg (c :: ·) (ih (some c) rest
        (fun p2 t ht hne => H p2 t (ht.trans (List.suffix_cons c rest)) hne))

theorem doSub_id {m : Option Char → List Char → Option Nat} {s : List Char}
    (H : ∀ prev2 t, t <:+ s → t ≠ [] → m prev2 t = none) : doSub m s = s :=
  subScanF_id m s.length none s H

theorem numUnitMatch_none {units : List (List Char)} {prev : Option Char} {c : Char}
    {r : List Char} (h : isDigitCh c = false) :
    numUnitMatch units prev (c :: r) = none := by
  simp [numUnitMatch, List.takeWhile_cons, h]

theorem xnumMatch_none {prev : Option Char} {c : Char} {r : List Char}
    (h : lowerChar c ≠ 'x') : xnumMatch prev (c :: r) = none := by
  simp [xnumMatch, h]

theorem bracketMatch_none {oc cc : Char} {prev : Option Char} {c : Char} {r : List Char}
    (h : c ≠ oc) : bracketMatch oc cc prev (c :: r) = none := by
  simp [bracketMatch, h]

theorem ciStarts_iff (p : List Char) : ∀ t : List Char,
    (ciStarts p t = true ↔ p.map lowerChar <+: t.map lowerChar) := by
  induction p with
  | nil => intro t; simp [ciStarts]
  | cons a ps ih =>
    intro t
    cases t with
    | nil =>
      simp [ciStarts]
    | cons b ts =>
      simp only [ciStarts, Bool.and_eq_true, beq_iff_eq, List.map_cons,
        List.cons_prefix_cons]
      rw [ih ts]

theorem starts_iff (p : List Char) : ∀ t : List Char, (starts p t = true ↔ p <+: t) := by
  induction p with
  | nil => intro t; simp [starts]
  | cons a ps ih =>
    intro t
    cases t with
    | nil => simp [starts]
    | cons b ts =>
      simp only [starts, Bool.and_eq_true, beq_iff_eq, List.cons_prefix_cons]
      rw [ih ts]

theorem containsSeq_iff (n : List Char) : ∀ h : List Char,
    (containsSeq n h = true ↔ n <:+: h) := by
  intro h
  induction h with
  | nil =>
    simp only [containsSeq]
    rw [starts_iff]
    simp [List.infix_nil]
  | cons c t ih =>
    simp only [containsSeq, Bool.or_eq_true]
    rw [starts_iff, ih, List.infix_cons_iff]

theorem brandMatch_none_all {tok : List Char} {s : List Char} {prev : Option Char}
    {t : List Char} (htok : tok.map lowerChar = tok)
    (hnc : containsSeq tok (s.map lowerChar) = false) (hsuf : t <:+ s) :
    brandMatch tok prev t = none := by
  have hci : ciStarts tok t = false := by
    by_contra hc
    have hc1 : ciStarts tok t = true := by
      revert hc; cases ciStarts tok t <;> simp
    have hp := (ciStarts_iff tok t).mp hc1
    rw [htok] at hp
    have hin : tok <:+: s.map lowerChar :=
      hp.isInfix.trans (hsuf.map lowerChar).isInfix
    have := (containsSeq_iff tok (s.map lowerChar)).mpr hin
    rw [hnc] at this
    cases this
  simp [brandMatch, hci]

/-! ### Whitespace collapsing and stripping invariants -/

theorem collapseWs_head_space : ∀ (t : List Char) (c : Char), isSpaceCh c = true →
    (collapseWs (c :: t)).head? = some ' ' := by
  intro t
  induction t with
  | nil => intro c h; simp [collapseWs, h]
  | cons c2 r ih =>
    intro c h
    by_cases h2 : isSpaceCh c2 = true
    · simp only [collapseWs, h, h2, Bool.and_self, if_true]
      exact ih c2 h2
    · simp [collapseWs, h, h2]

theorem collapseWs_cons_nonspace {c : Char} (t : List Char) (h : isSpaceCh c = false) :
    collapseWs (c :: t) = c :: collapseWs t := by
  cases t with
  | nil => simp [collapseWs, h]
  | cons c2 r => simp [collapseWs, h]

theorem WsNorm_collapseWs (l : List Char) : WsNorm (collapseWs l) := by
  induction l with
  | nil => exact ⟨by simp [collapseWs], List.chain'_nil⟩
  | cons c t ih =>
    cases t with
    | nil =>
      constructor
      · intro x hx hsp
        simp only [collapseWs, List.mem_singleton] at hx
        subst hx
        by_cases h : isSpaceCh c = true
        · simp [h]
        · rw [if_neg h] at hsp ⊢
          rw [hsp] at h
          cases h rfl
      · simp only [collapseWs]
        exact List.chain'_singleton _
    | cons c2 r =>
      by_cases hcc : (isSpaceCh c && isSpaceCh c2) = true
      · simpa only [collapseWs, hcc, if_true] using ih
      · have hcol : collapseWs (c :: c2 :: r)
            = (if isSpaceCh c then ' ' else c) :: collapseWs (c2 :: r) := by
          simp only [collapseWs, hcc, if_false, Bool.false_eq_true]
        rw [hcol]
        constructor
        · intro x hx hsp
          rcases List.mem_cons.mp hx with hx | hx
          · subst hx
            by_cases h : isSpaceCh c = true
            · simp [h]
            · rw [if_neg h] at hsp ⊢
              rw [hsp] at h
              cases h rfl
          · exact ih.1 x hx hsp
        · rw [List.chain'_cons']
          refine ⟨?_, ih.2⟩
          intro y hy
          by_cases h : isSpaceCh c = true
          · have h2 : isSpaceCh c2 = false := by
              revert hcc; rw [h]; cases isSpaceCh c2 <;> simp
            rw [collapseWs_cons_nonspace r h2] at hy
            simp only [List.head?_cons, Option.mem_def, Option.some_inj] at hy
            subst hy
            rintro ⟨_, hsp2⟩
            rw [h2] at hsp2
            cases hsp2
          · rw [if_neg h]
            rintro ⟨hsp1, _⟩
            rw [hsp1] at h
            cases h rfl

theorem collapseWs_of_WsNorm : ∀ l : List Char, WsNorm l → collapseWs l = l := by
  intro l
  induction l with
  | nil => intro _; rfl
  | cons c t ih =>
    intro h
    cases t with
    | nil =>
      by_cases hc : isSpaceCh c = true
      · have := h.1 c (List.mem_singleton_self c) hc
        simp [collapseWs, hc, this]
      · simp [collapseWs, hc]
    | cons c2 r =>
      have hcc : ¬(isSpaceCh c = true ∧ isSpaceCh c2 = true) :=
        (List.chain'_cons.mp h.2).1
      have hne : (isSpaceCh c && isSpaceCh c2) ≠ true := by
        simp only [ne_eq, Bool.and_eq_true]; exact hcc
      have htail : WsNorm (c2 :: r) :=
        ⟨fun x hx hs => h.1 x (List.mem_cons_of_mem c hx) hs,
         (List.chain'_cons.mp h.2).2⟩
      have hcol : collapseWs (c :: c2 :: r)
          = (if isSpaceCh c then ' ' else c) :: collapseWs (c2 :: r) := by
        simp only [collapseWs, if_neg hne]
      rw [hcol, ih htail]
      by_cases hc : isSpaceCh c = true
      · rw [if_pos hc, h.1 c (List.mem_cons_self c _) hc]
      · rw [if_neg hc]

theorem mem_collapseWs : ∀ (l : List Char) (x : Char), x ∈ collapseWs l →
    x = ' ' ∨ x ∈ l := by
  intro l
  induction l with
  | nil => intro x hx; cases hx
  | cons c t ih =>
    cases t with
    | nil =>
      intro x hx
      simp only [collapseWs, List.mem_singleton] at hx
      subst hx
      by_cases hc : isSpaceCh c = true
      · rw [if_pos hc]; exact Or.inl rfl
      · rw [if_neg hc]; exact Or.inr (List.mem_singleton_self c)
    | cons c2 r =>
      intro x hx
      by_cases hcc : (isSpaceCh c && isSpaceCh c2) = true
      · rw [show collapseWs (c :: c2 :: r) = collapseWs (c2 :: r) by
          simp only [collapseWs, hcc, if_true]] at hx
        rcases ih x hx with h | h
        · exact Or.inl h
        · exact Or.inr (List.mem_cons_of_mem c h)
      · rw [show collapseWs (c :: c2 :: r)
            = (if isSpaceCh c then ' ' else c) :: collapseWs (c2 :: r) by
          simp only [collapseWs, if_neg hcc]] at hx
        rcases List.mem_cons.mp hx with hx | hx
        · subst hx
          by_cases hc : isSpaceCh c = true
          · rw [if_pos hc]; exact Or.inl rfl
          · rw [if_neg hc]; exact Or.inr (List.mem_cons_self c _)
        · rcases ih x hx with h | h
          · exact Or.inl h
          · exact Or.inr (List.mem_cons_of_mem c h)

theorem nonspace_prefix_collapseWs : ∀ (t : List Char) (v : List Char),
    (∀ x ∈ v, isSpaceCh x = false) → v <+: collapseWs t → v <+: t := by
  intro t
  induction t with
  | nil =>
    intro v _ hv
    simpa [collapseWs] using hv
  | cons c t ih =>
    intro v hns hv
    cases t with
    | nil =>
      cases v with
      | nil => exact List.nil_prefix
      | cons a v2 =>
        simp only [collapseWs] at hv
        rcases List.cons_prefix_cons.mp hv with ⟨ha, hv2⟩
        have hv2nil : v2 = [] := List.prefix_nil.mp hv2
        subst hv2nil
        by_cases hc : isSpaceCh c = true
        · rw [if_pos hc] at ha
          have hfa := hns a (List.mem_cons_self a [])
          rw [ha] at hfa
          exact absurd hfa (by decide)
        · rw [if_neg hc] at ha
          subst ha
          exact List.prefix_refl _
    | cons c2 r =>
      by_cases hcc : (isSpaceCh c && isSpaceCh c2) = true
      · have hcol : collapseWs (c :: c2 :: r) = collapseWs (c2 :: r) := by
          simp only [collapseWs, hcc, if_true]
        rw [hcol] at hv
        cases v with
        | nil => exact List.nil_prefix
        | cons a v2 =>
          have h2 : isSpaceCh c2 = true := by
            revert hcc; cases isSpaceCh c <;> cases isSpaceCh c2 <;> simp
          have hhead := collapseWs_head_space r c2 h2
          rcases hv with ⟨w, hw⟩
          rw [← hw] at hhead
          simp only [List.cons_append, List.head?_cons, Option.some_inj] at hhead
          have hfa := hns a (List.mem_cons_self a v2)
          rw [hhead] at hfa
          exact absurd hfa (by decide)
      · have hcol : collapseWs (c :: c2 :: r)
            = (if isSpaceCh c then ' ' else c) :: collapseWs (c2 :: r) := by
          simp only [collapseWs, if_neg hcc]
        rw [hcol] at hv
        cases v with
        | nil => exact List.nil_prefix
        | cons a v2 =>
          rcases List.cons_prefix_cons.mp hv with ⟨ha, hv2⟩
          have hv2t := ih v2 (fun x hx => hns x (List.mem_cons_of_mem a hx)) hv2
          by_cases hc : isSpaceCh c = true
          · rw [if_pos hc] at ha
            have hfa := hns a (List.mem_cons_self a v2)
            rw [ha] at hfa
            exact absurd hfa (by decide)
          · rw [if_neg hc] at ha
            subst ha
            exact List.cons_prefix_cons.mpr ⟨rfl, hv2t⟩

theorem nonspace_infix_collapseWs : ∀ (t : List Char) (v : List Char), v ≠ [] →
    (∀ x ∈ v, isSpaceCh x = false) → v <:+: collapseWs t → v <:+: t := by
  intro t
  induction t with
  | nil =>
    intro v hne _ hv
    rw [show collapseWs [] = [] from rfl] at hv
    exact absurd (List.infix_nil.mp hv) hne
  | cons c t ih =>
    intro v hne hns hv
    cases t with
    | nil =>
      have hp : v <+: collapseWs [c] := by
        rcases List.infix_cons_iff.mp (show v <:+: [if isSpaceCh c then ' ' else c] from hv)
          with h | h
        · exact h
        · exact absurd (List.infix_nil.mp h) hne
      exact (nonspace_prefix_collapseWs [c] v hns hp).isInfix
    | cons c2 r =>
      by_cases hcc : (isSpaceCh c && isSpaceCh c2) = true
      · have hcol : collapseWs (c :: c2 :: r) = collapseWs (c2 :: r) := by
          simp only [collapseWs, hcc, if_true]
        rw [hcol] at hv
        exact List.infix_cons_iff.mpr (Or.inr (ih v hne hns hv))
      · have hcol : collapseWs (c :: c2 :: r)
            = (if isSpaceCh c then ' ' else c) :: collapseWs (c2 :: r) := by
          simp only [collapseWs, if_neg hcc]
        rw [hcol] at hv
        rcases List.infix_cons_iff.mp hv with h | h
        · have hp : v <+: collapseWs (c :: c2 :: r) := by rw [hcol]; exact h
          exact (nonspace_prefix_collapseWs _ v hns hp).isInfix
        · exact List.infix_cons_iff.mpr (Or.inr (ih v hne hns h))

/-! ### Strip lemmas -/

theorem dropWhile_head_false {p : Char → Bool} : ∀ {l : List Char} {c : Char} {t : List Char},
    List.dropWhile p l = c :: t → p c = false := by
  intro l
  induction l with
  | nil => intro c t h; cases h
  | cons a l2 ih =>
    intro c t h
    rw [List.dropWhile_cons] at h
    by_cases hp : p a = true
    · rw [if_pos hp] at h
      exact ih h
    · rw [if_neg hp] at h
      injection h with h1 _
      rw [← h1]
      exact Bool.not_eq_true _ ▸ hp

theorem dropWhile_eq_self_of_head {p : Char → Bool} {l : List Char}
    (h : ∀ c, l.head? = some c → p c = false) : List.dropWhile p l = l := by
  cases l with
  | nil => rfl
  | cons a t =>
    rw [List.dropWhile_cons, if_neg]
    rw [h a rfl]
    simp

theorem dropWhile_idem (p : Char → Bool) (l : List Char) :
    List.dropWhile p (List.dropWhile p l) = List.dropWhile p l := by
  apply dropWhile_eq_self_of_head
  intro c hc
  cases hd : List.dropWhile p l with
  | nil => rw [hd] at hc; cases hc
  | cons a t =>
    rw [hd] at hc
    simp only [List.head?_cons, Option.some_inj] at hc
    subst hc
    exact dropWhile_head_false hd

theorem head_dropWhile_false {p : Char → Bool} {l : List Char} {c : Char}
    (hc : (List.dropWhile p l).head? = some c) : p c = false := by
  cases hd : List.dropWhile p l with
  | nil => rw [hd] at hc; cases hc
  | cons a t =>
    rw [hd] at hc
    simp only [List.head?_cons, Option.some_inj] at hc
    subst hc
    exact dropWhile_head_false hd

theorem stripWs_prefix_dropWhile (l : List Char) :
    stripWs l <+: List.dropWhile isSpaceCh l := by
  unfold stripWs
  apply List.reverse_suffix.mp
  rw [List.reverse_reverse]
  exact List.dropWhile_suffix isSpaceCh

theorem stripWs_isInfix (l : List Char) : stripWs l <:+: l :=
  (stripWs_prefix_dropWhile l).isInfix.trans (List.dropWhile_suffix isSpaceCh).isInfix

theorem stripWs_idem (l : List Char) : stripWs (stripWs l) = stripWs l := by
  have step1 : List.dropWhile isSpaceCh (stripWs l) = stripWs l := by
    apply dropWhile_eq_self_of_head
    intro c hc
    rcases stripWs_prefix_dropWhile l with ⟨w, hw⟩
    cases hs : stripWs l with
    | nil => rw [hs] at hc; cases hc
    | cons a t =>
      rw [hs] at hc
      simp only [List.head?_cons, Option.some_inj] at hc
      subst hc
      apply head_dropWhile_false (l := l)
      rw [← hw, hs]
      simp
  show ((List.dropWhile isSpaceCh (stripWs l)).reverse.dropWhile isSpaceCh).reverse = stripWs l
  rw [step1]
  have hXrev : (stripWs l).reverse
      = List.dropWhile isSpaceCh ((List.dropWhile isSpaceCh l).reverse) := by
    show (((List.dropWhile isSpaceCh l).reverse.dropWhile isSpaceCh).reverse).reverse = _
    rw [List.reverse_reverse]
  rw [hXrev, dropWhile_idem, ← hXrev, List.reverse_reverse]

theorem WsNorm_stripWs {l : List Char} (h : WsNorm l) : WsNorm (stripWs l) :=
  ⟨fun c hc hs => h.1 c ((stripWs_isInfix l).sublist.subset hc) hs,
   List.Chain'.infix h.2 (stripWs_isInfix l)⟩

theorem collapseWs_stripWs_collapseWs (t : List Char) :
    collapseWs (stripWs (collapseWs t)) = stripWs (collapseWs t) :=
  collapseWs_of_WsNorm _ (WsNorm_stripWs (WsNorm_collapseWs t))

/-! ### Assembling the amended idempotence theorem -/

theorem map_lowerChar_fix {l : List Char} (h : ∀ c ∈ l, lowerChar c = c) :
    l.map lowerChar = l := by
  induction l with
  | nil => rfl
  | cons c t ih =>
    rw [List.map_cons, h c (List.mem_cons_self c t),
      ih (fun x hx => h x (List.mem_cons_of_mem c hx))]

theorem map_lowerChar_idem (l : List Char) :
    (l.map lowerChar).map lowerChar = l.map lowerChar := by
  apply map_lowerChar_fix
  intro c hc
  obtain ⟨c0, _, rfl⟩ := List.mem_map.mp hc
  exact lowerChar_idem c0

theorem clean_id_of_conds {l : List Char}
    (hcond : ∀ c ∈ l, isDigitCh c = false ∧ lowerChar c ≠ 'x' ∧ c ≠ '(' ∧ c ≠ '[') :
    clean_product_name_chars l = stripWs (collapseWs l) := by
  have h1 : doSub (numUnitMatch weightUnits) l = l :=
    doSub_id (by
      intro p2 t ht hne
      cases t with
      | nil => exact absurd rfl hne
      | cons c r =>
        exact numUnitMatch_none (hcond c (ht.subset (List.mem_cons_self c r))).1)
  have h2 : doSub (numUnitMatch countUnits) l = l :=
    doSub_id (by
      intro p2 t ht hne
      cases t with
      | nil => exact absurd rfl hne
      | cons c r =>
        exact numUnitMatch_none (hcond c (ht.subset (List.mem_cons_self c r))).1)
  have h3 : doSub xnumMatch l = l :=
    doSub_id (by
      intro p2 t ht hne
      cases t with
      | nil => exact absurd rfl hne
      | cons c r =>
        exact xnumMatch_none (hcond c (ht.subset (List.mem_cons_self c r))).2.1)
  have h4 : doSub (bracketMatch '(' ')') l = l :=
    doSub_id (by
      intro p2 t ht hne
      cases t with
      | nil => exact absurd rfl hne
      | cons c r =>
        exact bracketMatch_none (hcond c (ht.subset (List.mem_cons_self c r))).2.2.1)
  have h5 : doSub (bracketMatch '[' ']') l = l :=
    doSub_id (by
      intro p2 t ht hne
      cases t with
      | nil => exact absurd rfl hne
      | cons c r =>
        exact bracketMatch_none (hcond c (ht.subset (List.mem_cons_self c r))).2.2.2)
  show stripWs (collapseWs (doSub (bracketMatch '[' ']') (doSub (bracketMatch '(' ')')
      (doSub xnumMatch (doSub (numUnitMatch countUnits)
        (doSub (numUnitMatch weightUnits) l)))))) = stripWs (collapseWs l)
  rw [h1, h2, h3, h4, h5]

theorem brandTokens_facts : ∀ tok ∈ brandTokens,
    tok.map lowerChar = tok ∧ tok ≠ [] ∧ (∀ x ∈ tok, isSpaceCh x = false) := by decide

theorem brandFold_id {l : List Char}
    (htoks : ∀ tok ∈ brandTokens, containsSeq tok (l.map lowerChar) = false) :
    brandTokens.foldl (fun acc tok => doSub (brandMatch tok) acc) l = l := by
  have hgen : ∀ (toks : List (List Char)),
      (∀ tok ∈ toks, tok.map lowerChar = tok ∧ containsSeq tok (l.map lowerChar) = false) →
      toks.foldl (fun acc tok => doSub (brandMatch tok) acc) l = l := by
    intro toks
    induction toks with
    | nil => intro _; rfl
    | cons tk tks ih =>
      intro H
      rw [List.foldl_cons]
      have hid : doSub (brandMatch tk) l = l :=
        doSub_id (fun p2 t ht _ =>
          brandMatch_none_all (H tk (List.mem_cons_self tk tks)).1
            (H tk (List.mem_cons_self tk tks)).2 ht)
      rw [hid]
      exact ih (fun tok htok => H tok (List.mem_cons_of_mem tk htok))
  exact hgen brandTokens (fun tok htok =>
    ⟨(brandTokens_facts tok htok).1, htoks tok htok⟩)

theorem noCascade_conds_map {l : List Char}
    (h : ∀ c ∈ l, isDigitCh c = false ∧ lowerChar c ≠ 'x' ∧ c ≠ '(' ∧ c ≠ '[') :
    ∀ c ∈ l.map lowerChar, isDigitCh c = false ∧ lowerChar c ≠ 'x' ∧ c ≠ '(' ∧ c ≠ '[' := by
  intro c hc
  obtain ⟨c0, hc0, rfl⟩ := List.mem_map.mp hc
  obtain ⟨hd, hx, hp, hb⟩ := h c0 hc0
  refine ⟨?_, ?_, ?_, ?_⟩
  · rw [isDigitCh_lowerChar]; exact hd
  · rw [lowerChar_idem]; exact hx
  · exact lowerChar_ne_low hp (by decide)
  · exact lowerChar_ne_low hb (by decide)

theorem strip_collapse_map_lowered (l : List Char) :
    (stripWs (collapseWs (l.map lowerChar))).map lowerChar
      = stripWs (collapseWs (l.map lowerChar)) := by
  apply map_lowerChar_fix
  intro c hc
  have hc2 := (stripWs_isInfix _).sublist.subset hc
  rcases mem_collapseWs _ c hc2 with hsp | hmem
  · subst hsp
    decide
  · obtain ⟨c0, _, rfl⟩ := List.mem_map.mp hmem
    exact lowerChar_idem c0

theorem normalize_key {l : List Char} (h : noCascade l) :
    normalize_product_name_chars l = stripWs (collapseWs (l.map lowerChar)) := by
  obtain ⟨hchars, htoks⟩ := h
  have hconds0 := noCascade_conds_map hchars
  have hmapmap : (l.map lowerChar).map lowerChar = l.map lowerChar := map_lowerChar_idem l
  have htoks0 : ∀ tok ∈ brandTokens,
      containsSeq tok ((l.map lowerChar).map lowerChar) = false := by
    intro tok htok; rw [hmapmap]; exact htoks tok htok
  show stripWs (collapseWs ((clean_product_name_chars
      (brandTokens.foldl (fun acc tok => doSub (brandMatch tok) acc)
        (l.map lowerChar))).map lowerChar)) = stripWs (collapseWs (l.map lowerChar))
  rw [brandFold_id htoks0, clean_id_of_conds hconds0, strip_collapse_map_lowered,
    collapseWs_stripWs_collapseWs]
  exact stripWs_idem _

theorem noCascade_normalize {l : List Char} (h : noCascade l) :
    noCascade (normalize_product_name_chars l) := by
  obtain ⟨hchars, htoks⟩ := h
  rw [normalize_key ⟨hchars, htoks⟩]
  constructor
  · intro c hc
    have hc2 := (stripWs_isInfix _).sublist.subset hc
    rcases mem_collapseWs _ c hc2 with hsp | hmem
    · subst hsp
      refine ⟨by decide, by decide, by decide, by decide⟩
    · exact noCascade_conds_map hchars c hmem
  · intro tok htok
    rw [strip_collapse_map_lowered]
    by_contra hcon
    have htrue : containsSeq tok (stripWs (collapseWs (l.map lowerChar))) = true := by
      revert hcon
      cases containsSeq tok (stripWs (collapseWs (l.map lowerChar))) <;> simp
    have hin := (containsSeq_iff _ _).mp htrue
    have hin2 : tok <:+: collapseWs (l.map lowerChar) := hin.trans (stripWs_isInfix _)
    have hfacts := brandTokens_facts tok htok
    have hin3 : tok <:+: l.map lowerChar :=
      nonspace_infix_collapseWs _ tok hfacts.2.1 hfacts.2.2 hin2
    have hcontra := (containsSeq_iff _ _).mpr hin3
    rw [htoks tok htok] at hcontra
    cases hcontra

theorem string_mk_data (l : List Char) : (⟨l⟩ : String).data = l := rfl

theorem normalize_product_name_data (s : String) :
    (normalize_product_name s).data = normalize_product_name_chars s.data :=
  (congrArg String.data
    (rfl : normalize_product_name s = ⟨normalize_product_name_chars s.data⟩)).trans
    (string_mk_data _)

/-- C2 (amended): the normalizer is idempotent on every string in the
`noCascade` fragment — no digits, no letter x/X, no opening parenthesis or
bracket, and no brand token as case-insensitive substring — where no removal
stage can create a fresh pattern for another stage.  On general strings
idempotence fails (see the counterexample). -/
theorem c2_normalize_idem (s : String) (h : noCascade s.data) :
    normalize_product_name (normalize_product_name s) = normalize_product_name s := by
  have hlist : normalize_product_name_chars (normalize_product_name_chars s.data)
      = normalize_product_name_chars s.data := by
    have hp := noCascade_normalize h
    rw [normalize_key hp]
    rw [show (normalize_product_name_chars s.data).map lowerChar
        = normalize_product_name_chars s.data by
      rw [normalize_key h]; exact strip_collapse_map_lowered s.data]
    rw [normalize_key h, collapseWs_stripWs_collapseWs]
    exact stripWs_idem _
  apply String.ext
  rw [normalize_product_name_data (normalize_product_name s), normalize_product_name_data s]
  exact hlist

/-- C2 witness: a cascade-free title is a fixed point of a second
normalization pass. -/
theorem c2_normalize_idem_witness :
    normalize_product_name (normalize_product_name "신라면 세트")
      = normalize_product_name "신라면 세트" :=
  c2_normalize_idem "신라면 세트" (by decide)

/-- C2 counterexample: normalizing "5gx3" once yields "5g" (the `x\s*\d+`
removal), and a second pass removes "5g" as a weight pattern, so the
normalizer is not idempotent. -/
theorem c2_counterexample :
    normalize_product_name (normalize_product_name "5gx3")
      ≠ normalize_product_name "5gx3" := by decide

end ProductComparison
